import Mathlib

/-!
Verification of `src/fibonacci.cpp`: a program that generates all Fibonacci
numbers not exceeding a fixed limit (1000), suppressing the duplicate leading
`1`, and prints the last 15 of them in descending order, space-separated,
followed by a newline.

The C++ `main` is shallowly embedded below.  The generation `while` loop
becomes the fuel-indexed function `genLoopO` (returning `none` only on fuel
exhaustion, which we prove never happens for the fuel used by `generate`);
the print `for` loop becomes `formatGo` / `formatLastN`.  All integer values
occurring in the run for limit 1000 are small, so `Nat` models the C++ `int`
faithfully there; `intValues` collects every value the variables `previous`,
`current` and `next` ever take, to check the no-overflow property.
-/

namespace Fibonacci

/-- One conditional append, embedding
`if (fibonacci.empty() || fibonacci.back() != current) fibonacci.push_back(current);`.
The `empty()` check short-circuits: `getLast` is only applied under the proof
`h : acc ≠ []`, mirroring that `back()` is only evaluated on a non-empty vector. -/
def pushIfNew (acc : List Nat) (cur : Nat) : List Nat :=
  if h : acc = [] then acc ++ [cur]
  else if (acc.getLast h) ≠ cur then acc ++ [cur] else acc

/-- The generation `while (current <= limit)` loop, fuel-indexed.
State: `prev` = `previous`, `cur` = `current`, `acc` = the vector `fibonacci`.
Returns `some (sequence, iterations, suppressions)` when the loop exits via
its condition within `fuel` steps, `none` on fuel exhaustion.
`iterations` counts loop-body executions, `suppressions` counts the
iterations where the duplicate guard prevented a push. -/
def genLoopO (limit : Nat) : Nat → Nat → Nat → List Nat → Option (List Nat × Nat × Nat)
  | 0, _, _, _ => none
  | fuel + 1, prev, cur, acc =>
    if cur ≤ limit then
      match genLoopO limit fuel cur (prev + cur) (pushIfNew acc cur) with
      | none => none
      | some (l, m, s) =>
          some (l, m + 1, s + (if acc.getLast? = some cur then 1 else 0))
    else
      some (acc, 0, 0)

/-- The sequence built by the generation loop from the seed
`previous = 0`, `current = 1`.  Fuel `limit + 2` is proved sufficient below. -/
def generate (limit : Nat) : List Nat :=
  match genLoopO limit (limit + 2) 0 1 [] with
  | some (l, _, _) => l
  | none => []

/-- Number of iterations the generation loop executes for the given limit. -/
def genIterations (limit : Nat) : Nat :=
  match genLoopO limit (limit + 2) 0 1 [] with
  | some (_, m, _) => m
  | none => 0

/-- Number of times the duplicate-suppression guard fires (push skipped). -/
def suppCount (limit : Nat) : Nat :=
  match genLoopO limit (limit + 2) 0 1 [] with
  | some (_, _, s) => s
  | none => 0

/-- `count = std::min(desiredCount, fibonacci.size())` from the print loop. -/
def lastCount (fib : List Nat) (n : Nat) : Nat :=
  min n fib.length

/-- The list of values the print loop writes, in output order:
`fibonacci[fibonacci.size() - 1 - i]` for `i = 0, …, count - 1`. -/
def lastNValues (fib : List Nat) (n : Nat) : List Nat :=
  (List.range (lastCount fib n)).map (fun i => fib.getD (fib.length - 1 - i) 0)

/-- Space-joined rendering of a list of strings: no leading, trailing or
doubled separators. -/
def joinSpace : List String → String
  | [] => ""
  | [x] => x
  | x :: y :: t => x ++ " " ++ joinSpace (y :: t)

/-- The print `for` loop: at index `i`, writes the element at
`fibonacci.size() - 1 - i`, then a space exactly when `i + 1 < count`.
Fuel-indexed; fuel `count - i` is always enough. -/
def formatGo (fib : List Nat) (count : Nat) : Nat → Nat → String
  | 0, _ => ""
  | fuel + 1, i =>
    if i < count then
      toString (fib.getD (fib.length - 1 - i) 0) ++
        (if i + 1 < count then " " else "") ++ formatGo fib count fuel (i + 1)
    else ""

/-- The whole print loop: the last `min n fib.length` elements in reverse
order, space-separated, no trailing separator. -/
def formatLastN (fib : List Nat) (n : Nat) : String :=
  formatGo fib (lastCount fib n) (lastCount fib n) 0

/-- Everything the program writes to standard output. -/
def programOutput : String :=
  formatLastN (generate 1000) 15 ++ "\n"

/-- Every value taken by `next = previous + current` during the loop run,
in order.  Together with the initial `previous = 0` and `current = 1` these
are all values any integer variable of the program ever holds. -/
def arithTrace (limit : Nat) : Nat → Nat → Nat → List Nat
  | 0, _, _ => []
  | fuel + 1, prev, cur =>
    if cur ≤ limit then (prev + cur) :: arithTrace limit fuel cur (prev + cur)
    else []

/-- All values ever held by `previous`, `current` or `next` in a run. -/
def intValues (limit : Nat) : List Nat :=
  0 :: 1 :: arithTrace limit (limit + 2) 0 1

end Fibonacci

namespace Fibonacci

/-- `pushIfNew` appends exactly when the last stored element (if any)
differs from `cur`. -/
lemma pushIfNew_eq (acc : List Nat) (cur : Nat) :
    pushIfNew acc cur = if acc.getLast? = some cur then acc else acc ++ [cur] := by
  unfold pushIfNew
  by_cases h : acc = []
  · subst h; simp
  · rw [dif_neg h, List.getLast?_eq_getLast_of_ne_nil h]
    by_cases hc : acc.getLast h = cur
    · simp [hc]
    · rw [if_pos hc, if_neg (by simpa using hc)]

/-- Loop invariant for the generation loop: if every stored element is at
most `cur` and at most `limit`, the store is strictly increasing, and
`prev ≤ cur`, then the final sequence is strictly increasing and bounded
by `limit`. -/
lemma genLoopO_inv (limit : Nat) :
    ∀ fuel prev cur acc l m s,
      prev ≤ cur →
      (∀ e ∈ acc, e ≤ cur) →
      (∀ e ∈ acc, e ≤ limit) →
      List.Chain' (· < ·) acc →
      genLoopO limit fuel prev cur acc = some (l, m, s) →
      List.Chain' (· < ·) l ∧ (∀ e ∈ l, e ≤ limit) := by
  intro fuel
  induction fuel with
  | zero =>
    intro prev cur acc l m s _ _ _ _ h
    simp [genLoopO] at h
  | succ fuel ih =>
    intro prev cur acc l m s hpc hcur hlim hch h
    rw [genLoopO] at h
    by_cases hle : cur ≤ limit
    · rw [if_pos hle] at h
      cases hrec : genLoopO limit fuel cur (prev + cur) (pushIfNew acc cur) with
      | none => rw [hrec] at h; exact absurd h (by simp)
      | some r =>
        obtain ⟨l', m', s'⟩ := r
        rw [hrec] at h
        simp only [Option.some.injEq, Prod.mk.injEq] at h
        obtain ⟨hl, -⟩ := h
        subst hl
        refine ih cur (prev + cur) (pushIfNew acc cur) l' m' s'
          (Nat.le_add_left _ _) ?_ ?_ ?_ hrec
        · intro e he
          rw [pushIfNew_eq] at he
          split at he
          · exact Nat.le_trans (hcur e he) (Nat.le_add_left _ _)
          · rcases List.mem_append.mp he with h1 | h1
            · exact Nat.le_trans (hcur e h1) (Nat.le_add_left _ _)
            · simp at h1; subst h1; exact Nat.le_add_left _ _
        · intro e he
          rw [pushIfNew_eq] at he
          split at he
          · exact hlim e he
          · rcases List.mem_append.mp he with h1 | h1
            · exact hlim e h1
            · simp at h1; subst h1; exact hle
        · rw [pushIfNew_eq]
          split
          · exact hch
          · rename_i hne
            refine List.Chain'.append hch (List.chain'_singleton cur) ?_
            intro x hx y hy
            simp only [List.head?_cons, Option.mem_def, Option.some.injEq] at hy
            subst hy
            have hxmem : ∃ hne : acc ≠ [], x = acc.getLast hne :=
              List.mem_getLast?_eq_getLast hx
            obtain ⟨hacc, hxeq⟩ := hxmem
            have hxle : x ≤ cur := hcur x (hxeq ▸ List.getLast_mem hacc)
            have hxne : x ≠ cur := by
              intro hxc
              exact hne (by rw [← hxc]; exact hx)
            omega
    · rw [if_neg hle] at h
      simp only [Option.some.injEq, Prod.mk.injEq] at h
      obtain ⟨hl, -⟩ := h
      subst hl
      exact ⟨hch, hlim⟩

/-- Invariants of the generated sequence, for any limit: strictly
increasing throughout, and every element bounded by the limit. -/
lemma generate_chain_and_bound (limit : Nat) :
    List.Chain' (· < ·) (generate limit) ∧ ∀ e ∈ generate limit, e ≤ limit := by
  unfold generate
  cases hrec : genLoopO limit (limit + 2) 0 1 [] with
  | none => simp
  | some r =>
    obtain ⟨l, m, s⟩ := r
    exact genLoopO_inv limit (limit + 2) 0 1 [] l m s (by omega)
      (by simp) (by simp) (by simp) hrec

/-- C3: for every limit ≥ 1, every element of the generated sequence is at
most the limit. -/
theorem generate_bound_invariant (limit : Nat) (h : 1 ≤ limit) :
    ∀ e ∈ generate limit, e ≤ limit :=
  (generate_chain_and_bound limit).2

/-- Witness for C3 at limit 1000 and element 987. -/
theorem generate_bound_invariant_witness :
    1 ≤ 1000 ∧ 987 ∈ generate 1000 ∧ 987 ≤ 1000 :=
  ⟨by decide, by decide, generate_bound_invariant 1000 (by decide) 987 (by decide)⟩

/-- C4: for every limit ≥ 1, no two adjacent elements of the generated
sequence are equal. -/
theorem generate_no_consecutive_duplicates (limit : Nat) (h : 1 ≤ limit) :
    List.Chain' (· ≠ ·) (generate limit) :=
  List.Chain'.imp (fun _ _ hab => Nat.ne_of_lt hab)
    (generate_chain_and_bound limit).1

/-- Witness for C4 at limit 1000. -/
theorem generate_no_consecutive_duplicates_witness :
    List.Chain' (· ≠ ·) (generate 1000) :=
  generate_no_consecutive_duplicates 1000 (by decide)

/-- C5: for every limit ≥ 1 the generated sequence is strictly increasing
after its first element: `sequence[i] < sequence[i+1]` for every `i ≥ 1`
with `i + 1` in range.  (In fact this holds for every `i ≥ 0`.) -/
theorem generate_strictly_increasing (limit : Nat) (h : 1 ≤ limit) (i : Nat)
    (h1 : 1 ≤ i) (h2 : i + 1 < (generate limit).length) :
    (generate limit).getD i 0 < (generate limit).getD (i + 1) 0 := by
  have hch := (generate_chain_and_bound limit).1
  rw [List.chain'_iff_get] at hch
  have hi : i < (generate limit).length := Nat.lt_of_succ_lt h2
  have := hch i (by omega)
  simpa [List.getD_eq_getElem?_getD, List.getElem?_eq_getElem hi,
    List.getElem?_eq_getElem h2, List.get_eq_getElem] using this

/-- Witness for C5 at limit 1000, index 1. -/
theorem generate_strictly_increasing_witness :
    1 + 1 < (generate 1000).length ∧
      (generate 1000).getD 1 0 < (generate 1000).getD 2 0 :=
  ⟨by decide, generate_strictly_increasing 1000 (by decide) 1 (by decide) (by decide)⟩

/-- C1: the program writes exactly one line, the literal string
`"987 610 377 233 144 89 55 34 21 13 8 5 3 2 1"` followed by a newline,
single spaces between numbers, no trailing separator or whitespace. -/
theorem program_output_exact :
    programOutput = "987 610 377 233 144 89 55 34 21 13 8 5 3 2 1\n" := by
  decide

/-- C2 counterexample: the stored sequence for limit 1000 has 15 elements,
not 14 as the claim states. -/
theorem generate_1000_length_ne_14 : (generate 1000).length ≠ 14 := by
  decide

/-- C2 (amended): after generation with limit 1000 the stored sequence is
exactly `[1, 2, 3, 5, 8, 13, 21, 34, 55, 89, 144, 233, 377, 610, 987]`
(15 elements), and the duplicate-suppression guard fired exactly once. -/
theorem generate_1000_exact :
    generate 1000 = [1, 2, 3, 5, 8, 13, 21, 34, 55, 89, 144, 233, 377, 610, 987] ∧
      (generate 1000).length = 15 ∧ suppCount 1000 = 1 := by
  refine ⟨by decide, by decide, by decide⟩

/-- The print loop writes nothing once the index reaches `count`. -/
lemma formatGo_of_le (fib : List Nat) (count : Nat) (fuel i : Nat)
    (h : ¬ i < count) : formatGo fib count fuel i = "" := by
  cases fuel with
  | zero => rfl
  | succ fuel => rw [formatGo, if_neg h]

/-- The print loop from index `i` produces exactly the space-joined
rendering of the elements at positions `size - 1 - j` for
`j = i, …, count - 1`, provided the fuel covers the remaining indices. -/
lemma formatGo_eq_joinSpace (fib : List Nat) (count : Nat) :
    ∀ fuel i, count - i ≤ fuel →
      formatGo fib count fuel i =
        joinSpace ((List.range' i (count - i)).map
          (fun j => toString (fib.getD (fib.length - 1 - j) 0))) := by
  intro fuel
  induction fuel with
  | zero =>
    intro i hf
    have h0 : count - i = 0 := Nat.le_zero.mp hf
    rw [h0]
    rfl
  | succ fuel ih =>
    intro i hf
    by_cases hi : i < count
    · have hstep : count - i = (count - (i + 1)) + 1 := by omega
      rw [formatGo, if_pos hi, hstep, List.range'_succ, List.map_cons]
      by_cases hi1 : i + 1 < count
      · have hpos : ∃ t, count - (i + 1) = t + 1 := ⟨count - (i + 2), by omega⟩
        obtain ⟨t, ht⟩ := hpos
        rw [if_pos hi1, ih (i + 1) (by omega), ht, List.range'_succ, List.map_cons,
          joinSpace]
      · have h0 : count - (i + 1) = 0 := by omega
        rw [if_neg hi1, h0, formatGo_of_le fib count fuel (i + 1) hi1]
        simp [joinSpace]
    · have h0 : count - i = 0 := by omega
      rw [formatGo_of_le fib count (fuel + 1) i hi, h0]
      rfl

/-- `formatLastN` is exactly the space-joined rendering of `lastNValues`. -/
lemma formatLastN_eq_joinSpace (fib : List Nat) (n : Nat) :
    formatLastN fib n = joinSpace ((lastNValues fib n).map toString) := by
  unfold formatLastN lastNValues
  rw [formatGo_eq_joinSpace fib (lastCount fib n) (lastCount fib n) 0 (by omega),
    List.range_eq_range', List.map_map]
  rfl

/-- When the whole sequence is printed, it comes out reversed. -/
lemma lastNValues_of_ge (seq : List Nat) (n : Nat) (hn : seq.length ≤ n) :
    lastNValues seq n = seq.reverse := by
  unfold lastNValues lastCount
  have hmin : min n seq.length = seq.length := Nat.min_eq_right hn
  rw [hmin]
  apply List.ext_getElem
  · simp
  · intro i h1 h2
    have hi : i < seq.length := by simpa using h1
    have hidx : seq.length - 1 - i < seq.length := by omega
    simp [List.getD_eq_getElem?_getD, List.getElem?_eq_getElem hidx]

/-- C6: the print loop outputs exactly `min n (length seq)` numbers (it
renders the space-joined `lastNValues`, whose length is that minimum), and
when the sequence is shorter than `n` every element is printed (reversed),
with no padding. -/
theorem formatLastN_count_correct (seq : List Nat) (n : Nat) (h : seq ≠ []) :
    formatLastN seq n = joinSpace ((lastNValues seq n).map toString) ∧
      (lastNValues seq n).length = min n seq.length ∧
      (seq.length < n → lastNValues seq n = seq.reverse) := by
  refine ⟨formatLastN_eq_joinSpace seq n, ?_, fun hlt => lastNValues_of_ge seq n (by omega)⟩
  unfold lastNValues lastCount
  simp

/-- Witness for C6 at `seq = [1, 2, 3]`, `n = 5`. -/
theorem formatLastN_count_correct_witness :
    ([1, 2, 3] : List Nat) ≠ [] ∧
      (formatLastN [1, 2, 3] 5 = joinSpace ((lastNValues [1, 2, 3] 5).map toString) ∧
        (lastNValues [1, 2, 3] 5).length = min 5 ([1, 2, 3] : List Nat).length ∧
        (([1, 2, 3] : List Nat).length < 5 →
          lastNValues [1, 2, 3] 5 = ([1, 2, 3] : List Nat).reverse)) :=
  ⟨by decide, formatLastN_count_correct [1, 2, 3] 5 (by decide)⟩

/-- C10: in the print loop, every access `fibonacci[size - 1 - i]` for
`i < count` is in bounds, because `count = min(desiredCount, size) ≤ size`.
(The other access, `fibonacci.back()`, is modelled by `pushIfNew`, whose
`getLast` is applied only under the proof of non-emptiness produced by the
short-circuiting `empty()` check.) -/
theorem print_indices_in_bounds (seq : List Nat) (n i : Nat)
    (h : i < lastCount seq n) :
    lastCount seq n ≤ seq.length ∧ seq.length - 1 - i < seq.length := by
  unfold lastCount at *
  constructor
  · exact Nat.min_le_right _ _
  · have : i < seq.length := Nat.lt_of_lt_of_le h (Nat.min_le_right _ _)
    omega

/-- Witness for C10 at `seq = [1]`, `n = 15`, `i = 0`. -/
theorem print_indices_in_bounds_witness :
    0 < lastCount [1] 15 ∧
      (lastCount [1] 15 ≤ ([1] : List Nat).length ∧
        ([1] : List Nat).length - 1 - 0 < ([1] : List Nat).length) :=
  ⟨by decide, print_indices_in_bounds [1] 15 0 (by decide)⟩

/-- Fuel sufficiency: once `previous, current ≥ 1`, the loop needs at most
`limit - current + 1` more iterations, so any fuel exceeding `limit - current`
makes it exit through its condition. -/
lemma genLoopO_isSome_aux (limit : Nat) :
    ∀ fuel prev cur acc, 1 ≤ prev → 1 ≤ cur → limit < cur + fuel →
      (genLoopO limit (fuel + 1) prev cur acc).isSome = true := by
  intro fuel
  induction fuel with
  | zero =>
    intro prev cur acc _ _ hlt
    rw [genLoopO, if_neg (by omega)]
    rfl
  | succ fuel ih =>
    intro prev cur acc hp hc hlt
    rw [genLoopO]
    by_cases hle : cur ≤ limit
    · rw [if_pos hle]
      have hrec := ih cur (prev + cur) (pushIfNew acc cur) hc (by omega) (by omega)
      obtain ⟨r, hr⟩ := Option.isSome_iff_exists.mp hrec
      obtain ⟨l, m, s⟩ := r
      rw [hr]
      rfl
    · rw [if_neg hle]
      rfl

/-- The fuel `limit + 2` used by `generate` always suffices: the loop exits
through its condition, never by fuel exhaustion. -/
lemma genLoopO_top_isSome (limit : Nat) :
    (genLoopO limit (limit + 2) 0 1 []).isSome = true := by
  by_cases h : 1 ≤ limit
  · show (genLoopO limit ((limit + 1) + 1) 0 1 []).isSome = true
    rw [genLoopO, if_pos (by omega)]
    have hrec := genLoopO_isSome_aux limit limit 1 (0 + 1) (pushIfNew [] 1)
      (by omega) (by omega) (by omega)
    obtain ⟨r, hr⟩ := Option.isSome_iff_exists.mp hrec
    obtain ⟨l, m, s⟩ := r
    rw [hr]
    rfl
  · have h0 : limit = 0 := by omega
    subst h0
    decide

/-- Fibonacci tracking: started from the state `(fib i, fib (i + 1))`, the
loop's iteration count `m` satisfies `fib (i + m) ≤ limit` unless `m = 0`:
every iterated `current` value is a Fibonacci number not exceeding the
limit. -/
lemma genLoopO_fib_count (limit : Nat) :
    ∀ fuel i acc l m s,
      genLoopO limit fuel (Nat.fib i) (Nat.fib (i + 1)) acc = some (l, m, s) →
      m = 0 ∨ Nat.fib (i + m) ≤ limit := by
  intro fuel
  induction fuel with
  | zero =>
    intro i acc l m s h
    simp [genLoopO] at h
  | succ fuel ih =>
    intro i acc l m s h
    rw [genLoopO] at h
    by_cases hle : Nat.fib (i + 1) ≤ limit
    · rw [if_pos hle, ← Nat.fib_add_two] at h
      cases hrec : genLoopO limit fuel (Nat.fib (i + 1)) (Nat.fib (i + 2))
          (pushIfNew acc (Nat.fib (i + 1))) with
      | none => rw [hrec] at h; exact absurd h (by simp)
      | some r =>
        obtain ⟨l', m', s'⟩ := r
        rw [hrec] at h
        simp only [Option.some.injEq, Prod.mk.injEq] at h
        obtain ⟨-, hm, -⟩ := h
        have hrec' : genLoopO limit fuel (Nat.fib (i + 1)) (Nat.fib (i + 1 + 1))
            (pushIfNew acc (Nat.fib (i + 1))) = some (l', m', s') := hrec
        right
        rcases ih (i + 1) (pushIfNew acc (Nat.fib (i + 1))) l' m' s' hrec' with h0 | hfle
        · have : i + m = i + 1 := by omega
          rw [this]
          exact hle
        · have : i + m = i + 1 + m' := by omega
          rw [this]
          exact hfle
    · rw [if_neg hle] at h
      simp only [Option.some.injEq, Prod.mk.injEq] at h
      left
      omega

/-- Fibonacci numbers grow at least geometrically: `2 ^ k ≤ fib (2k + 2)`. -/
lemma two_pow_le_fib (k : Nat) : 2 ^ k ≤ Nat.fib (2 * k + 2) := by
  induction k with
  | zero => decide
  | succ k ih =>
    calc 2 ^ (k + 1) = 2 ^ k + 2 ^ k := by rw [pow_succ, Nat.mul_two]
      _ ≤ Nat.fib (2 * k + 2) + Nat.fib (2 * k + 2 + 1) :=
          Nat.add_le_add ih (Nat.le_trans ih Nat.fib_le_fib_succ)
      _ = Nat.fib (2 * (k + 1) + 2) := by
          rw [← Nat.fib_add_two]
          congr 1

/-- C7: for every limit ≥ 1 the generation loop terminates (exits through
its condition within the fuel `limit + 2`), and its iteration count is
O(log limit): at most `2 * log₂ limit + 3`. -/
theorem generate_terminates_log_iterations (limit : Nat) (h : 1 ≤ limit) :
    (genLoopO limit (limit + 2) 0 1 []).isSome = true ∧
      genIterations limit ≤ 2 * Nat.log 2 limit + 3 := by
  refine ⟨genLoopO_top_isSome limit, ?_⟩
  unfold genIterations
  cases hrec : genLoopO limit (limit + 2) 0 1 [] with
  | none => exact Nat.zero_le _
  | some r =>
    obtain ⟨l, m, s⟩ := r
    show m ≤ 2 * Nat.log 2 limit + 3
    have hrec' : genLoopO limit (limit + 2) (Nat.fib 0) (Nat.fib (0 + 1)) []
        = some (l, m, s) := hrec
    rcases genLoopO_fib_count limit (limit + 2) 0 [] l m s hrec' with h0 | hfle
    · omega
    · by_contra hgt
      have hk : 2 * (Nat.log 2 limit + 1) + 2 ≤ m := by omega
      have h1 : 2 ^ (Nat.log 2 limit + 1) ≤ Nat.fib (2 * (Nat.log 2 limit + 1) + 2) :=
        two_pow_le_fib (Nat.log 2 limit + 1)
      have h2 : Nat.fib (2 * (Nat.log 2 limit + 1) + 2) ≤ Nat.fib (0 + m) :=
        Nat.fib_mono (by omega)
      have h3 : limit < 2 ^ (Nat.log 2 limit + 1) :=
        Nat.lt_pow_succ_log_self (by omega) limit
      omega

/-- Witness for C7 at limit 1000. -/
theorem generate_terminates_log_iterations_witness :
    (genLoopO 1000 (1000 + 2) 0 1 []).isSome = true ∧
      genIterations 1000 ≤ 2 * Nat.log 2 1000 + 3 :=
  generate_terminates_log_iterations 1000 (by decide)

/-- C8: `generate 1 = [1]` and formatting `[1]` with desired count 15
yields the string `"1"`. -/
theorem generate_one_and_format :
    generate 1 = [1] ∧ formatLastN [1] 15 = "1" := by
  refine ⟨by decide, by decide⟩

/-- C9: for the fixed limit 1000, every value ever taken by `previous`,
`current`, or `next = previous + current` is below `2 ^ 15`, hence fits in
any conforming C++ `int` (which has at least 16 bits): no overflow occurs. -/
theorem no_overflow_limit_1000 :
    ∀ v ∈ intValues 1000, v < 2 ^ 15 := by
  decide

/-- Witness for C9 at the largest traced value. -/
theorem no_overflow_limit_1000_witness :
    1597 ∈ intValues 1000 ∧ 1597 < 2 ^ 15 :=
  ⟨by decide, no_overflow_limit_1000 1597 (by decide)⟩

end Fibonacci
